import Mathlib

/-!
# EC-Schnorr multisignature scheme — `src/libCrypto/MultiSig.h` (Zilliqa)

The repository declares four serializable value types (`CommitSecret`, `CommitPoint`,
`Challenge`, `Response`) and a stateless aggregator/verifier class `MultiSig` for an
EC-Schnorr multisignature scheme.  The header gives only declarations; the behaviour of
every operation is modelled here from the specification document.

The elliptic-curve engine is an external collaborator, so the curve group is modelled as
the additive cyclic group `ZMod n` of order `n` (the group order): a curve point is its
discrete logarithm with respect to a fixed enumeration, the point at infinity (group
identity) is `0`, point addition is `+`, and multiplying a point `P` by a scalar `k` is
`k * P`.  The generator `G : ZMod n` and the hash-to-scalar function
`H : point → pubkey → message → ℕ` are parameters supplied by the engine.
Byte buffers are modelled as `List ℕ`.
-/

namespace Zilliqa

/-! ## Byte-encoding helpers (fixed-width big-endian wire format) -/

/-- Number of base-256 digits of `v`, computed with explicit fuel so that the kernel
can evaluate it on concrete inputs. -/
def widthAux (fuel v : ℕ) : ℕ :=
  match fuel with
  | 0 => 1
  | fuel + 1 => if v < 256 then 1 else widthAux fuel (v / 256) + 1

/-- Byte width of the fixed-width encoding used for scalars and (modelled) points:
the number of bytes needed to write the group order `n` in base 256. -/
def orderWidth (n : ℕ) : ℕ := widthAux n n

/-- Fixed-width big-endian byte encoding of a natural number (most significant byte
first, truncated to `w` bytes). -/
def beBytes : ℕ → ℕ → List ℕ
  | 0, _ => []
  | w + 1, v => beBytes w (v / 256) ++ [v % 256]

/-- Big-endian decoding of a byte list. -/
def beDecode (l : List ℕ) : ℕ := l.foldl (fun acc b => acc * 256 + b) 0

/-- Write `payload` into buffer `dst` starting at `offset`, zero-padding if the buffer
is shorter than `offset` and keeping any bytes after the written region. -/
def writeAt (dst : List ℕ) (offset : ℕ) (payload : List ℕ) : List ℕ :=
  (dst.take offset ++ List.replicate (offset - dst.length) 0) ++ payload
    ++ dst.drop (offset + payload.length)

/-- Read `w` bytes from buffer `src` at `offset`; fails when the buffer is too short. -/
def readAt (src : List ℕ) (offset w : ℕ) : Option (List ℕ) :=
  if offset + w ≤ src.length then some ((src.drop offset).take w) else none

/-! ## External key/signature types (declared in `Schnorr.h`, outside this core) -/

/-- A private key: a scalar of the engine. -/
abbrev PrivKey (n : ℕ) := ZMod n

/-- A public key: a curve point (for an honest signer, `privkey · G`). -/
abbrev PubKey (n : ℕ) := ZMod n

/-- A standalone Schnorr signature: the `(challenge, response)` scalar pair. -/
structure Signature (n : ℕ) where
  m_c : ZMod n
  m_r : ZMod n
deriving DecidableEq

/-! ## CommitSecret -/

/-- `CommitSecret` (MultiSig.h:31-65): a per-signer ephemeral secret scalar `m_s`
plus the `m_initialized` flag. -/
structure CommitSecret (n : ℕ) where
  m_s : ZMod n
  m_initialized : Bool
deriving DecidableEq

/-- `CommitSecret::Initialized` (MultiSig.h:52): reports the initialization flag. -/
def CommitSecret.Initialized {n : ℕ} (x : CommitSecret n) : Bool := x.m_initialized

/-- Modelled from the spec: `CommitSecret::operator==` (body not in `src/`) compares
the underlying scalar values only when both operands are initialized. -/
def CommitSecret.beq {n : ℕ} (a b : CommitSecret n) : Bool :=
  a.m_initialized && b.m_initialized && decide (a.m_s = b.m_s)

/-- Modelled from the spec: `CommitSecret::Serialize` (body not in `src/`) writes the
scalar as a fixed-width big-endian encoding, the byte width of the group order, into
the destination buffer at the given offset; the initialized flag is not serialized.
Returns the updated buffer. -/
def CommitSecret.Serialize {n : ℕ} (x : CommitSecret n) (dst : List ℕ) (offset : ℕ) :
    List ℕ :=
  writeAt dst offset (beBytes (orderWidth n) x.m_s.val)

/-- Modelled from the spec: `CommitSecret::Deserialize` (body not in `src/`) reads the
fixed-width payload at the offset, validating length and that the recovered scalar is
in range `1 ≤ s < n` (never zero); on malformed input the result stays uninitialized. -/
def CommitSecret.Deserialize {n : ℕ} (src : List ℕ) (offset : ℕ) : CommitSecret n :=
  match readAt src offset (orderWidth n) with
  | none => ⟨0, false⟩
  | some bytes =>
    let v := beDecode bytes
    if 1 ≤ v ∧ v < n then ⟨(v : ZMod n), true⟩ else ⟨0, false⟩

/-- Modelled from the spec: `CommitSecret` copy constructor (body not in `src/`) copies
the payload and the initialization flag, leaving the source unchanged (value
semantics). -/
def CommitSecret.copy {n : ℕ} (src : CommitSecret n) : CommitSecret n :=
  ⟨src.m_s, src.m_initialized⟩

/-- Modelled from the spec: `CommitSecret::operator=` (body not in `src/`) overwrites
the destination with a copy of the source. -/
def CommitSecret.assign {n : ℕ} (_dst src : CommitSecret n) : CommitSecret n :=
  CommitSecret.copy src

/-! ## CommitPoint -/

/-- `CommitPoint` (MultiSig.h:68-108): the public commitment point `m_p` plus the
`m_initialized` flag. -/
structure CommitPoint (n : ℕ) where
  m_p : ZMod n
  m_initialized : Bool
deriving DecidableEq

/-- `CommitPoint::Initialized` (MultiSig.h:92): reports the initialization flag. -/
def CommitPoint.Initialized {n : ℕ} (x : CommitPoint n) : Bool := x.m_initialized

/-- Modelled from the spec: `CommitPoint::operator==` (body not in `src/`) compares the
point coordinates only when both operands are initialized. -/
def CommitPoint.beq {n : ℕ} (a b : CommitPoint n) : Bool :=
  a.m_initialized && b.m_initialized && decide (a.m_p = b.m_p)

/-- Modelled from the spec: `CommitPoint::Set` (body not in `src/`) re-derives the
point by multiplying the group generator `G` by the secret scalar, overwriting any
prior value; it fails (uninitialized) if the secret is uninitialized. -/
def CommitPoint.Set {n : ℕ} (G : ZMod n) (_self : CommitPoint n) (secret : CommitSecret n) :
    CommitPoint n :=
  if secret.m_initialized then ⟨secret.m_s * G, true⟩ else ⟨0, false⟩

/-- Modelled from the spec: the `CommitPoint(const CommitSecret &)` constructor (body
not in `src/`) derives the point from the secret exactly as `Set` does. -/
def CommitPoint.ofSecret {n : ℕ} (G : ZMod n) (secret : CommitSecret n) : CommitPoint n :=
  CommitPoint.Set G ⟨0, false⟩ secret

/-- Modelled from the spec: `CommitPoint::Serialize` (body not in `src/`) writes the
engine's canonical fixed-width point encoding — modelled as the big-endian encoding of
the point's index in the cyclic group — into the buffer at the offset. -/
def CommitPoint.Serialize {n : ℕ} (x : CommitPoint n) (dst : List ℕ) (offset : ℕ) :
    List ℕ :=
  writeAt dst offset (beBytes (orderWidth n) x.m_p.val)

/-- Modelled from the spec: `CommitPoint::Deserialize` (body not in `src/`) reads the
fixed-width point encoding, validating that the decoded point lies on the curve
(modelled: index in range) and is not the identity element; on malformed input the
result stays uninitialized. -/
def CommitPoint.Deserialize {n : ℕ} (src : List ℕ) (offset : ℕ) : CommitPoint n :=
  match readAt src offset (orderWidth n) with
  | none => ⟨0, false⟩
  | some bytes =>
    let v := beDecode bytes
    if v < n ∧ 1 ≤ v then ⟨(v : ZMod n), true⟩ else ⟨0, false⟩

/-- Modelled from the spec: `CommitPoint` copy constructor (body not in `src/`). -/
def CommitPoint.copy {n : ℕ} (src : CommitPoint n) : CommitPoint n :=
  ⟨src.m_p, src.m_initialized⟩

/-- Modelled from the spec: `CommitPoint::operator=` (body not in `src/`). -/
def CommitPoint.assign {n : ℕ} (_dst src : CommitPoint n) : CommitPoint n :=
  CommitPoint.copy src

/-! ## Challenge -/

/-- `Challenge` (MultiSig.h:111-151): the round-wide challenge scalar `m_c` plus the
`m_initialized` flag. -/
structure Challenge (n : ℕ) where
  m_c : ZMod n
  m_initialized : Bool
deriving DecidableEq

/-- `Challenge::Initialized` (MultiSig.h:135): reports the initialization flag. -/
def Challenge.Initialized {n : ℕ} (x : Challenge n) : Bool := x.m_initialized

/-- Modelled from the spec: `Challenge::operator==` (body not in `src/`) compares the
scalar values only when both operands are initialized. -/
def Challenge.beq {n : ℕ} (a b : Challenge n) : Bool :=
  a.m_initialized && b.m_initialized && decide (a.m_c = b.m_c)

/-- Modelled from the spec: `Challenge::Set` (body not in `src/`) recomputes
`c = HashToScalar(aggregatedCommit ‖ aggregatedPubkey ‖ message)` reduced modulo the
group order, overwriting any prior value; it fails (uninitialized) if the aggregated
commit point is uninitialized or is the identity element. -/
def Challenge.Set {n : ℕ} (H : ZMod n → ZMod n → List ℕ → ℕ) (_self : Challenge n)
    (aggregatedCommit : CommitPoint n) (aggregatedPubkey : PubKey n)
    (message : List ℕ) : Challenge n :=
  if aggregatedCommit.m_initialized && decide (aggregatedCommit.m_p ≠ 0) then
    ⟨((H aggregatedCommit.m_p aggregatedPubkey message : ℕ) : ZMod n), true⟩
  else ⟨0, false⟩

/-- Modelled from the spec: the challenge-generating constructor
`Challenge(aggregatedCommit, aggregatedPubkey, message)` (body not in `src/`) computes
the challenge exactly as `Set` does. -/
def Challenge.ofInputs {n : ℕ} (H : ZMod n → ZMod n → List ℕ → ℕ)
    (aggregatedCommit : CommitPoint n) (aggregatedPubkey : PubKey n)
    (message : List ℕ) : Challenge n :=
  Challenge.Set H ⟨0, false⟩ aggregatedCommit aggregatedPubkey message

/-- Modelled from the spec: `Challenge::Serialize` (body not in `src/`). -/
def Challenge.Serialize {n : ℕ} (x : Challenge n) (dst : List ℕ) (offset : ℕ) :
    List ℕ :=
  writeAt dst offset (beBytes (orderWidth n) x.m_c.val)

/-- Modelled from the spec: `Challenge::Deserialize` (body not in `src/`) validates
length and that the scalar is in `[0, n)`. -/
def Challenge.Deserialize {n : ℕ} (src : List ℕ) (offset : ℕ) : Challenge n :=
  match readAt src offset (orderWidth n) with
  | none => ⟨0, false⟩
  | some bytes =>
    let v := beDecode bytes
    if v < n then ⟨(v : ZMod n), true⟩ else ⟨0, false⟩

/-- Modelled from the spec: `Challenge` copy constructor (body not in `src/`). -/
def Challenge.copy {n : ℕ} (src : Challenge n) : Challenge n :=
  ⟨src.m_c, src.m_initialized⟩

/-- Modelled from the spec: `Challenge::operator=` (body not in `src/`). -/
def Challenge.assign {n : ℕ} (_dst src : Challenge n) : Challenge n :=
  Challenge.copy src

/-! ## Response -/

/-- `Response` (MultiSig.h:154-194): the per-signer response scalar `m_r` plus the
`m_initialized` flag. -/
structure Response (n : ℕ) where
  m_r : ZMod n
  m_initialized : Bool
deriving DecidableEq

/-- `Response::Initialized` (MultiSig.h:178): reports the initialization flag. -/
def Response.Initialized {n : ℕ} (x : Response n) : Bool := x.m_initialized

/-- Modelled from the spec: `Response::operator==` (body not in `src/`) compares the
scalar values only when both operands are initialized. -/
def Response.beq {n : ℕ} (a b : Response n) : Bool :=
  a.m_initialized && b.m_initialized && decide (a.m_r = b.m_r)

/-- Modelled from the spec: `Response::Set` (body not in `src/`) recomputes
`r = (secret.s + challenge.c * privkey) mod n`, overwriting any prior value; it fails
(uninitialized) if the secret or the challenge is uninitialized. -/
def Response.Set {n : ℕ} (_self : Response n) (secret : CommitSecret n)
    (challenge : Challenge n) (privkey : PrivKey n) : Response n :=
  if secret.m_initialized && challenge.m_initialized then
    ⟨secret.m_s + challenge.m_c * privkey, true⟩
  else ⟨0, false⟩

/-- Modelled from the spec: the response-generating constructor
`Response(secret, challenge, privkey)` (body not in `src/`) computes the response
exactly as `Set` does. -/
def Response.ofInputs {n : ℕ} (secret : CommitSecret n) (challenge : Challenge n)
    (privkey : PrivKey n) : Response n :=
  Response.Set ⟨0, false⟩ secret challenge privkey

/-- Modelled from the spec: `Response::Serialize` (body not in `src/`). -/
def Response.Serialize {n : ℕ} (x : Response n) (dst : List ℕ) (offset : ℕ) :
    List ℕ :=
  writeAt dst offset (beBytes (orderWidth n) x.m_r.val)

/-- Modelled from the spec: `Response::Deserialize` (body not in `src/`) validates
length and that the scalar is in `[0, n)`. -/
def Response.Deserialize {n : ℕ} (src : List ℕ) (offset : ℕ) : Response n :=
  match readAt src offset (orderWidth n) with
  | none => ⟨0, false⟩
  | some bytes =>
    let v := beDecode bytes
    if v < n then ⟨(v : ZMod n), true⟩ else ⟨0, false⟩

/-- Modelled from the spec: `Response` copy constructor (body not in `src/`). -/
def Response.copy {n : ℕ} (src : Response n) : Response n :=
  ⟨src.m_r, src.m_initialized⟩

/-- Modelled from the spec: `Response::operator=` (body not in `src/`). -/
def Response.assign {n : ℕ} (_dst src : Response n) : Response n :=
  Response.copy src

/-! ## MultiSig: stateless aggregator/verifier -/

/-- Modelled from the spec: the running point sum of an aggregation (bodies of the
`MultiSig` aggregation routines are not in `src/`).  Starting from `acc`, each element
is added in turn and the aggregation fails as soon as the running sum becomes the
group identity element. -/
def MultiSig.aggSum {n : ℕ} (acc : ZMod n) : List (ZMod n) → Option (ZMod n)
  | [] => some acc
  | p :: rest => if acc + p = 0 then none else MultiSig.aggSum (acc + p) rest

/-- Modelled from the spec: `MultiSig::AggregatePubKeys` (body not in `src/`) sums the
public keys as group points, returning null if the input is empty or the running sum
ever becomes the identity element. -/
def MultiSig.AggregatePubKeys {n : ℕ} (pubkeys : List (PubKey n)) : Option (PubKey n) :=
  match pubkeys with
  | [] => none
  | _ => MultiSig.aggSum 0 pubkeys

/-- Modelled from the spec: `MultiSig::AggregateCommits` (body not in `src/`) sums the
commit points identically to key aggregation: it fails on empty input, on any
uninitialized commit point, or when the running sum ever becomes the identity. -/
def MultiSig.AggregateCommits {n : ℕ} (commitPoints : List (CommitPoint n)) :
    Option (CommitPoint n) :=
  match commitPoints with
  | [] => none
  | l =>
    if l.all (fun c => c.m_initialized) then
      (MultiSig.aggSum 0 (l.map (fun c => c.m_p))).map (fun p => ⟨p, true⟩)
    else none

/-- Modelled from the spec: `MultiSig::AggregateResponses` (body not in `src/`) sums
the response scalars modulo the group order; it fails on empty input and when any
response is uninitialized. -/
def MultiSig.AggregateResponses {n : ℕ} (responses : List (Response n)) :
    Option (Response n) :=
  match responses with
  | [] => none
  | l =>
    if l.all (fun r => r.m_initialized) then some ⟨(l.map (fun r => r.m_r)).sum, true⟩
    else none

/-- Modelled from the spec: `MultiSig::AggregateSign` (body not in `src/`) packages
`(challenge.c, aggregatedResponse.r)` as the final signature, failing if either input
is uninitialized. -/
def MultiSig.AggregateSign {n : ℕ} (challenge : Challenge n)
    (aggregatedResponse : Response n) : Option (Signature n) :=
  if challenge.m_initialized && aggregatedResponse.m_initialized then
    some ⟨challenge.m_c, aggregatedResponse.m_r⟩
  else none

/-- Modelled from the spec: `MultiSig::VerifyResponse` (body not in `src/`) checks the
per-signer Schnorr identity `response·G == commitPoint + challenge·pubkey`; any
uninitialized operand is treated as verification failure (a boolean result, never an
exception — the model is a total function). -/
def MultiSig.VerifyResponse {n : ℕ} (G : ZMod n) (response : Response n)
    (challenge : Challenge n) (pubkey : PubKey n) (commitPoint : CommitPoint n) : Bool :=
  response.m_initialized && challenge.m_initialized && commitPoint.m_initialized &&
    decide (response.m_r * G = commitPoint.m_p + challenge.m_c * pubkey)

/-- Modelled from the spec: the standalone (non-multi) Schnorr verification equation
(implemented in `Schnorr.h`, outside this core): recompute
`Rp = response·G − challenge·pubKey` and accept iff
`HashToScalar(Rp ‖ pubKey ‖ message) == challenge`. -/
def Schnorr.Verify {n : ℕ} (H : ZMod n → ZMod n → List ℕ → ℕ) (G : ZMod n)
    (sig : Signature n) (pubKey : PubKey n) (message : List ℕ) : Bool :=
  decide (((H (sig.m_r * G - sig.m_c * pubKey) pubKey message : ℕ) : ZMod n) = sig.m_c)

/-- A concrete hash-to-scalar function over the order-7 model group, used to
instantiate the engine parameters on concrete runs. -/
def end_to_end_witness_H (R P : ZMod 7) (m : List ℕ) : ℕ :=
  R.val + 2 * P.val + m.length

/-! ## Supporting lemmas: byte encoding -/

theorem beBytes_length (w : ℕ) : ∀ v, (beBytes w v).length = w := by
  induction w with
  | zero => intro v; rfl
  | succ w ih => intro v; simp [beBytes, ih]

theorem beDecode_append (xs : List ℕ) (b : ℕ) :
    beDecode (xs ++ [b]) = beDecode xs * 256 + b := by
  simp [beDecode, List.foldl_append]

theorem beDecode_beBytes (w : ℕ) : ∀ v, beDecode (beBytes w v) = v % 256 ^ w := by
  induction w with
  | zero => intro v; simp [beBytes, beDecode, Nat.mod_one]
  | succ w ih =>
    intro v
    rw [beBytes, beDecode_append, ih]
    have h2 : 256 ^ (w + 1) = 256 * 256 ^ w := by ring
    rw [h2, Nat.mod_mul]
    omega

theorem lt_pow_widthAux : ∀ fuel v, v ≤ fuel → v < 256 ^ widthAux fuel v := by
  intro fuel
  induction fuel with
  | zero =>
    intro v hv
    have : v = 0 := Nat.le_zero.mp hv
    subst this
    simp [widthAux]
  | succ fuel ih =>
    intro v hv
    by_cases h : v < 256
    · simp [widthAux, h]
    · have h256 : 256 ≤ v := Nat.le_of_not_lt h
      have hdiv : v / 256 < v := Nat.div_lt_self (by omega) (by omega)
      have hfuel : v / 256 ≤ fuel := by omega
      have ihv := ih (v / 256) hfuel
      rw [widthAux]
      simp only [h, if_false]
      have hmod : 256 * (v / 256) + v % 256 = v := Nat.div_add_mod v 256
      have hmod2 : v % 256 < 256 := Nat.mod_lt _ (by omega)
      have hmul : 256 * (v / 256 + 1) ≤ 256 * 256 ^ widthAux fuel (v / 256) :=
        Nat.mul_le_mul_left _ ihv
      have hpow : 256 ^ (widthAux fuel (v / 256) + 1)
          = 256 * 256 ^ widthAux fuel (v / 256) := by ring
      omega

theorem n_lt_pow_orderWidth (n : ℕ) : n < 256 ^ orderWidth n :=
  lt_pow_widthAux n n le_rfl

theorem beDecode_beBytes_orderWidth {n v : ℕ} (hv : v < n) :
    beDecode (beBytes (orderWidth n) v) = v := by
  rw [beDecode_beBytes]
  exact Nat.mod_eq_of_lt (lt_trans hv (n_lt_pow_orderWidth n))

theorem readAt_append (pre payload rest : List ℕ) (offset w : ℕ)
    (hpre : pre.length = offset) (hlen : payload.length = w) :
    readAt (pre ++ payload ++ rest) offset w = some payload := by
  unfold readAt
  have hlen2 : offset + w ≤ (pre ++ payload ++ rest).length := by
    simp [hpre, hlen]
  rw [if_pos hlen2, List.append_assoc, ← hpre, List.drop_left, ← hlen, List.take_left]

theorem readAt_writeAt (dst : List ℕ) (offset w : ℕ) (payload : List ℕ)
    (hlen : payload.length = w) :
    readAt (writeAt dst offset payload) offset w = some payload := by
  unfold writeAt
  apply readAt_append
  · simp [List.length_take, List.length_replicate]
    omega
  · exact hlen

/-! ## Supporting lemmas: aggregation -/

theorem aggSum_sum {n : ℕ} : ∀ (l : List (ZMod n)) (acc v : ZMod n),
    MultiSig.aggSum acc l = some v → v = acc + l.sum := by
  intro l
  induction l with
  | nil => intro acc v h; simp [MultiSig.aggSum] at h; simp [h]
  | cons p rest ih =>
    intro acc v h
    rw [MultiSig.aggSum] at h
    by_cases hz : acc + p = 0
    · simp [hz] at h
    · rw [if_neg hz] at h
      have := ih (acc + p) v h
      rw [this]
      simp [add_assoc]

theorem aggSum_ne_zero {n : ℕ} : ∀ (l : List (ZMod n)) (acc v : ZMod n),
    acc ≠ 0 → MultiSig.aggSum acc l = some v → v ≠ 0 := by
  intro l
  induction l with
  | nil => intro acc v hacc h; simp [MultiSig.aggSum] at h; rw [← h]; exact hacc
  | cons p rest ih =>
    intro acc v hacc h
    rw [MultiSig.aggSum] at h
    by_cases hz : acc + p = 0
    · simp [hz] at h
    · rw [if_neg hz] at h
      exact ih (acc + p) v hz h

theorem aggSum_none_of_prefix {n : ℕ} : ∀ (l : List (ZMod n)) (acc : ZMod n) (k : ℕ),
    1 ≤ k → k ≤ l.length → acc + (l.take k).sum = 0 → MultiSig.aggSum acc l = none := by
  intro l
  induction l with
  | nil => intro acc k h1 h2 _; simp at h2; omega
  | cons p rest ih =>
    intro acc k h1 h2 h3
    match k with
    | 1 =>
      simp at h3
      rw [MultiSig.aggSum, if_pos h3]
    | k + 2 =>
      rw [MultiSig.aggSum]
      by_cases hz : acc + p = 0
      · rw [if_pos hz]
      · rw [if_neg hz]
        apply ih (acc + p) (k + 1) (by omega) (by simpa using h2)
        simp at h3
        rw [add_assoc]
        exact h3

theorem AggregatePubKeys_eq_some {n : ℕ} (l : List (PubKey n)) (v : PubKey n)
    (h : MultiSig.AggregatePubKeys l = some v) : v = l.sum ∧ v ≠ 0 ∧ l ≠ [] := by
  match l with
  | [] => simp [MultiSig.AggregatePubKeys] at h
  | p :: rest =>
    have h2 : MultiSig.aggSum 0 (p :: rest) = some v := h
    refine ⟨by simpa using aggSum_sum _ _ _ h2, ?_, by simp⟩
    rw [MultiSig.aggSum] at h2
    by_cases hz : (0 : ZMod n) + p = 0
    · simp [hz] at h2
    · rw [if_neg hz] at h2
      exact aggSum_ne_zero _ _ _ hz h2

theorem AggregateCommits_eq_some {n : ℕ} (l : List (CommitPoint n)) (c : CommitPoint n)
    (h : MultiSig.AggregateCommits l = some c) :
    c.m_p = (l.map (fun x => x.m_p)).sum ∧ c.m_p ≠ 0 ∧ c.m_initialized = true
      ∧ l ≠ [] := by
  match l with
  | [] => simp [MultiSig.AggregateCommits] at h
  | p :: rest =>
    have h2 : (if (p :: rest).all (fun c => c.m_initialized) then
        (MultiSig.aggSum 0 ((p :: rest).map (fun c => c.m_p))).map
          (fun q => (⟨q, true⟩ : CommitPoint n))
        else none) = some c := h
    by_cases hall : (p :: rest).all (fun c => c.m_initialized)
    · rw [if_pos hall] at h2
      match hs : MultiSig.aggSum 0 ((p :: rest).map (fun c => c.m_p)) with
      | none => rw [hs] at h2; simp at h2
      | some q =>
        rw [hs] at h2
        simp at h2
        have hsum := aggSum_sum _ _ _ hs
        have hq : q ≠ 0 := by
          rw [List.map_cons, MultiSig.aggSum] at hs
          by_cases hz : (0 : ZMod n) + p.m_p = 0
          · rw [if_pos hz] at hs; simp at hs
          · rw [if_neg hz] at hs
            exact aggSum_ne_zero _ _ _ hz hs
        refine ⟨?_, ?_, ?_, by simp⟩
        · rw [← h2]; simpa using hsum
        · rw [← h2]; exact hq
        · rw [← h2]
    · rw [if_neg hall] at h2; simp at h2

theorem AggregateResponses_eq_some {n : ℕ} (l : List (Response n))
    (hne : l ≠ []) (hall : ∀ r ∈ l, r.m_initialized = true) :
    MultiSig.AggregateResponses l = some ⟨(l.map (fun r => r.m_r)).sum, true⟩ := by
  match l with
  | [] => exact absurd rfl hne
  | p :: rest =>
    have h : (p :: rest).all (fun r => r.m_initialized) = true := by
      rw [List.all_eq_true]; exact hall
    show (if (p :: rest).all (fun r => r.m_initialized) then _ else none) = _
    rw [h]
    simp

theorem deserializeSecret_eq {n : ℕ} (src : List ℕ) (offset : ℕ) (bytes : List ℕ)
    (h : readAt src offset (orderWidth n) = some bytes) :
    CommitSecret.Deserialize (n := n) src offset
      = if 1 ≤ beDecode bytes ∧ beDecode bytes < n
        then ⟨((beDecode bytes : ℕ) : ZMod n), true⟩ else ⟨0, false⟩ := by
  unfold CommitSecret.Deserialize
  rw [h]

theorem deserializePoint_eq {n : ℕ} (src : List ℕ) (offset : ℕ) (bytes : List ℕ)
    (h : readAt src offset (orderWidth n) = some bytes) :
    CommitPoint.Deserialize (n := n) src offset
      = if beDecode bytes < n ∧ 1 ≤ beDecode bytes
        then ⟨((beDecode bytes : ℕ) : ZMod n), true⟩ else ⟨0, false⟩ := by
  unfold CommitPoint.Deserialize
  rw [h]

theorem deserializeChallenge_eq {n : ℕ} (src : List ℕ) (offset : ℕ) (bytes : List ℕ)
    (h : readAt src offset (orderWidth n) = some bytes) :
    Challenge.Deserialize (n := n) src offset
      = if beDecode bytes < n
        then ⟨((beDecode bytes : ℕ) : ZMod n), true⟩ else ⟨0, false⟩ := by
  unfold Challenge.Deserialize
  rw [h]

theorem deserializeResponse_eq {n : ℕ} (src : List ℕ) (offset : ℕ) (bytes : List ℕ)
    (h : readAt src offset (orderWidth n) = some bytes) :
    Response.Deserialize (n := n) src offset
      = if beDecode bytes < n
        then ⟨((beDecode bytes : ℕ) : ZMod n), true⟩ else ⟨0, false⟩ := by
  unfold Response.Deserialize
  rw [h]

theorem readAt_eq_none (src : List ℕ) (offset w : ℕ)
    (h : ¬ offset + w ≤ src.length) : readAt src offset w = none := by
  unfold readAt
  rw [if_neg h]

theorem all_of_perm {α : Type} (l₁ l₂ : List α) (h : l₁.Perm l₂) (p : α → Bool) :
    l₁.all p = l₂.all p := by
  rw [Bool.eq_iff_iff, List.all_eq_true, List.all_eq_true]
  constructor <;> intro hh x hx
  · exact hh x (h.mem_iff.mpr hx)
  · exact hh x (h.mem_iff.mp hx)

/-! ## Claim theorems -/

/-- C5: `AggregatePubKeys`, `AggregateCommits` and `AggregateResponses` return a
null/uninitialized result on an empty input collection, and the point-summing
aggregations additionally fail whenever a running point sum (the sum of any nonempty
prefix of the inputs) becomes the group identity element. -/
theorem degenerate_aggregation_fails {n : ℕ} :
    MultiSig.AggregatePubKeys (n := n) [] = none
    ∧ MultiSig.AggregateCommits (n := n) [] = none
    ∧ MultiSig.AggregateResponses (n := n) [] = none
    ∧ (∀ (l : List (PubKey n)) (k : ℕ), 1 ≤ k → k ≤ l.length → (l.take k).sum = 0 →
        MultiSig.AggregatePubKeys l = none)
    ∧ (∀ (l : List (CommitPoint n)) (k : ℕ), 1 ≤ k → k ≤ l.length →
        ((l.map (fun c => c.m_p)).take k).sum = 0 →
        MultiSig.AggregateCommits l = none) := by
  refine ⟨rfl, rfl, rfl, ?_, ?_⟩
  · intro l k h1 h2 h3
    match l with
    | [] => simp at h2; omega
    | p :: rest =>
      show MultiSig.aggSum 0 (p :: rest) = none
      apply aggSum_none_of_prefix _ _ k h1 h2
      rw [zero_add]
      exact h3
  · intro l k h1 h2 h3
    match l with
    | [] => simp at h2; omega
    | p :: rest =>
      show (if (p :: rest).all (fun c => c.m_initialized) then _ else none)
        = (none : Option (CommitPoint n))
      by_cases hall : (p :: rest).all (fun c => c.m_initialized)
      · rw [if_pos hall]
        have : MultiSig.aggSum 0 ((p :: rest).map (fun c => c.m_p)) = none := by
          apply aggSum_none_of_prefix _ _ k h1 (by simpa using h2)
          rw [zero_add]
          exact h3
        rw [this]
        rfl
      · rw [if_neg hall]

/-- C5 witness: the empty aggregation fails, and concrete cancelling inputs over the
group of order 5 make the running sum hit the identity, so aggregation fails. -/
theorem degenerate_aggregation_fails_witness :
    MultiSig.AggregatePubKeys (n := 5) [] = none
    ∧ MultiSig.AggregatePubKeys [(1 : ZMod 5), 4, 2] = none
    ∧ MultiSig.AggregateCommits [(⟨2, true⟩ : CommitPoint 5), ⟨3, true⟩] = none := by
  refine ⟨(degenerate_aggregation_fails (n := 5)).1, ?_, ?_⟩
  · exact degenerate_aggregation_fails.2.2.2.1 [1, 4, 2] 2 (by decide) (by decide)
      (by decide)
  · exact degenerate_aggregation_fails.2.2.2.2 [⟨2, true⟩, ⟨3, true⟩] 2 (by decide)
      (by decide) (by decide)

/-- C6: constructing a `Challenge` (constructor or `Set`) from an uninitialized or
identity-valued aggregated commit point leaves the challenge uninitialized; otherwise
the challenge is the hash-to-scalar of (commit point, public key, message) reduced
modulo the group order. -/
theorem challenge_degeneracy {n : ℕ} [NeZero n] (H : ZMod n → ZMod n → List ℕ → ℕ) :
    (∀ (c₀ : Challenge n) (a : CommitPoint n) (p : PubKey n) (m : List ℕ),
      Challenge.Set H c₀ a p m = Challenge.ofInputs H a p m)
    ∧ (∀ (a : CommitPoint n) (p : PubKey n) (m : List ℕ),
        a.Initialized = false ∨ a.m_p = 0 →
        (Challenge.ofInputs H a p m).Initialized = false)
    ∧ (∀ (a : CommitPoint n) (p : PubKey n) (m : List ℕ),
        a.Initialized = true → a.m_p ≠ 0 →
        (Challenge.ofInputs H a p m).Initialized = true
        ∧ (Challenge.ofInputs H a p m).m_c = ((H a.m_p p m : ℕ) : ZMod n)
        ∧ (Challenge.ofInputs H a p m).m_c.val = H a.m_p p m % n) := by
  refine ⟨fun c₀ a p m => rfl, ?_, ?_⟩
  · intro a p m h
    rcases h with h | h
    · simp only [CommitPoint.Initialized] at h
      simp [Challenge.ofInputs, Challenge.Set, Challenge.Initialized, h]
    · simp [Challenge.ofInputs, Challenge.Set, Challenge.Initialized, h]
  · intro a p m h1 h2
    simp only [CommitPoint.Initialized] at h1
    refine ⟨?_, ?_, ?_⟩
    · simp [Challenge.ofInputs, Challenge.Set, Challenge.Initialized, h1, h2]
    · simp [Challenge.ofInputs, Challenge.Set, h1, h2]
    · simp [Challenge.ofInputs, Challenge.Set, h1, h2, ZMod.val_natCast]

/-- C6 witness: a degenerate (uninitialized) aggregated commit point yields an
uninitialized challenge; an initialized non-identity one yields the reduced hash. -/
theorem challenge_degeneracy_witness :
    (Challenge.ofInputs (fun R P m => R.val + 2 * P.val + m.length)
      (⟨3, false⟩ : CommitPoint 7) 6 [1]).Initialized = false
    ∧ (Challenge.ofInputs (fun R P m => R.val + 2 * P.val + m.length)
      (⟨1, true⟩ : CommitPoint 7) 6 [1, 2, 3]).m_c.val
        = (1 + 2 * 6 + 3) % 7 := by
  constructor
  · exact (challenge_degeneracy (fun R P m => R.val + 2 * P.val + m.length)).2.1
      ⟨3, false⟩ 6 [1] (Or.inl (by decide))
  · exact ((challenge_degeneracy (fun R P m => R.val + 2 * P.val + m.length)).2.2
      ⟨1, true⟩ 6 [1, 2, 3] (by decide) (by decide)).2.2

/-- C7: constructing a `Response` (constructor or `Set`) from an initialized secret,
an initialized challenge and a private key yields an initialized response with scalar
`(secret.s + challenge.c * privkey) mod n`; if the secret or the challenge is
uninitialized, the response is uninitialized. -/
theorem response_construction {n : ℕ} [NeZero n] :
    (∀ (r₀ : Response n) (s : CommitSecret n) (c : Challenge n) (k : PrivKey n),
      Response.Set r₀ s c k = Response.ofInputs s c k)
    ∧ (∀ (s : CommitSecret n) (c : Challenge n) (k : PrivKey n),
        s.Initialized = true → c.Initialized = true →
        (Response.ofInputs s c k).Initialized = true
        ∧ (Response.ofInputs s c k).m_r = s.m_s + c.m_c * k
        ∧ (Response.ofInputs s c k).m_r.val = (s.m_s.val + c.m_c.val * k.val) % n)
    ∧ (∀ (s : CommitSecret n) (c : Challenge n) (k : PrivKey n),
        s.Initialized = false ∨ c.Initialized = false →
        (Response.ofInputs s c k).Initialized = false) := by
  refine ⟨fun r₀ s c k => rfl, ?_, ?_⟩
  · intro s c k h1 h2
    simp only [CommitSecret.Initialized] at h1
    simp only [Challenge.Initialized] at h2
    refine ⟨?_, ?_, ?_⟩
    · simp [Response.ofInputs, Response.Set, Response.Initialized, h1, h2]
    · simp [Response.ofInputs, Response.Set, h1, h2]
    · have hm : (Response.ofInputs s c k).m_r = s.m_s + c.m_c * k := by
        simp [Response.ofInputs, Response.Set, h1, h2]
      rw [hm, ZMod.val_add, ZMod.val_mul]
      conv_rhs => rw [Nat.add_mod]
      rw [Nat.mod_eq_of_lt (ZMod.val_lt _)]
  · intro s c k h
    rcases h with h | h
    · simp only [CommitSecret.Initialized] at h
      simp [Response.ofInputs, Response.Set, Response.Initialized, h]
    · simp only [Challenge.Initialized] at h
      simp [Response.ofInputs, Response.Set, Response.Initialized, h]

/-- C7 witness: concrete response over the group of order 7:
`r = (3 + 4·5) mod 7 = 2`, and an uninitialized challenge gives an uninitialized
response. -/
theorem response_construction_witness :
    (Response.ofInputs (⟨3, true⟩ : CommitSecret 7) ⟨4, true⟩ 5).m_r.val
      = (3 + 4 * 5) % 7
    ∧ (Response.ofInputs (⟨3, true⟩ : CommitSecret 7) ⟨4, false⟩ 5).Initialized
      = false := by
  constructor
  · exact (response_construction.2.1 ⟨3, true⟩ ⟨4, true⟩ 5 (by decide) (by decide)).2.2
  · exact response_construction.2.2 ⟨3, true⟩ ⟨4, false⟩ 5 (Or.inr (by decide))

/-- C8: `VerifyResponse` returns `false` (a boolean verification failure, not an
exception — the model is a total function) whenever the response, the challenge or the
commit point is uninitialized. -/
theorem verify_response_uninitialized_operands {n : ℕ} (G : ZMod n) :
    ∀ (resp : Response n) (ch : Challenge n) (pk : PubKey n) (cp : CommitPoint n),
      resp.Initialized = false ∨ ch.Initialized = false ∨ cp.Initialized = false →
      MultiSig.VerifyResponse G resp ch pk cp = false := by
  intro resp ch pk cp h
  unfold MultiSig.VerifyResponse
  rcases h with h | h | h
  · simp only [Response.Initialized] at h
    simp [h]
  · simp only [Challenge.Initialized] at h
    simp [h]
  · simp only [CommitPoint.Initialized] at h
    simp [h]

/-- C8 witness: an uninitialized commit point operand makes `VerifyResponse` return
`false` even though the algebraic identity would hold on the raw payloads. -/
theorem verify_response_uninitialized_operands_witness :
    MultiSig.VerifyResponse (1 : ZMod 7) ⟨5, true⟩ ⟨4, true⟩ 1 ⟨1, false⟩ = false :=
  verify_response_uninitialized_operands 1 ⟨5, true⟩ ⟨4, true⟩ 1 ⟨1, false⟩
    (Or.inr (Or.inr (by decide)))

/-- C9: for every byte buffer and offset, deserialization of each of the four value
types produces an initialized value exactly when the buffer is long enough and the
decoded payload is legal: a `CommitSecret` scalar must satisfy `1 ≤ s < n` (never
zero), a `CommitPoint` must be a valid non-identity point (modelled: index in
`[1, n)`), and a `Challenge`/`Response` scalar must lie in `[0, n)`; no
partially-decoded value is ever exposed as initialized. -/
theorem deserialize_validation {n : ℕ} :
    ∀ (src : List ℕ) (offset : ℕ),
      ((CommitSecret.Deserialize (n := n) src offset).Initialized = true ↔
        (offset + orderWidth n ≤ src.length
          ∧ 1 ≤ beDecode ((src.drop offset).take (orderWidth n))
          ∧ beDecode ((src.drop offset).take (orderWidth n)) < n))
      ∧ ((CommitPoint.Deserialize (n := n) src offset).Initialized = true ↔
        (offset + orderWidth n ≤ src.length
          ∧ 1 ≤ beDecode ((src.drop offset).take (orderWidth n))
          ∧ beDecode ((src.drop offset).take (orderWidth n)) < n))
      ∧ ((Challenge.Deserialize (n := n) src offset).Initialized = true ↔
        (offset + orderWidth n ≤ src.length
          ∧ beDecode ((src.drop offset).take (orderWidth n)) < n))
      ∧ ((Response.Deserialize (n := n) src offset).Initialized = true ↔
        (offset + orderWidth n ≤ src.length
          ∧ beDecode ((src.drop offset).take (orderWidth n)) < n)) := by
  intro src offset
  by_cases hlen : offset + orderWidth n ≤ src.length
  · have hread : readAt src offset (orderWidth n)
        = some ((src.drop offset).take (orderWidth n)) := by
      unfold readAt
      rw [if_pos hlen]
    rw [deserializeSecret_eq _ _ _ hread, deserializePoint_eq _ _ _ hread,
      deserializeChallenge_eq _ _ _ hread, deserializeResponse_eq _ _ _ hread]
    refine ⟨?_, ?_, ?_, ?_⟩
    · by_cases hv : 1 ≤ beDecode ((src.drop offset).take (orderWidth n))
          ∧ beDecode ((src.drop offset).take (orderWidth n)) < n
      · simp [hv, CommitSecret.Initialized, hlen]
      · rw [if_neg hv]
        simp only [CommitSecret.Initialized]
        simp [hlen]
        omega
    · by_cases hv : beDecode ((src.drop offset).take (orderWidth n)) < n
          ∧ 1 ≤ beDecode ((src.drop offset).take (orderWidth n))
      · simp [hv, CommitPoint.Initialized, hlen, hv.1, hv.2]
      · rw [if_neg hv]
        simp only [CommitPoint.Initialized]
        simp [hlen]
        omega
    · by_cases hv : beDecode ((src.drop offset).take (orderWidth n)) < n
      · simp [hv, Challenge.Initialized, hlen]
      · simp [hv, Challenge.Initialized, hlen]
    · by_cases hv : beDecode ((src.drop offset).take (orderWidth n)) < n
      · simp [hv, Response.Initialized, hlen]
      · simp [hv, Response.Initialized, hlen]
  · have hread : readAt src offset (orderWidth n) = none := readAt_eq_none _ _ _ hlen
    unfold CommitSecret.Deserialize CommitPoint.Deserialize Challenge.Deserialize
      Response.Deserialize
    rw [hread]
    simp [CommitSecret.Initialized, CommitPoint.Initialized, Challenge.Initialized,
      Response.Initialized, hlen]

/-- C9 witness: a too-short buffer leaves a `CommitSecret` uninitialized, an encoded
zero scalar leaves a `CommitSecret` and a `CommitPoint` uninitialized but is accepted
for a `Challenge`, and an out-of-range scalar is rejected everywhere. -/
theorem deserialize_validation_witness :
    (CommitSecret.Deserialize (n := 7) [3] 1).Initialized = false
    ∧ (CommitSecret.Deserialize (n := 7) [0] 0).Initialized = false
    ∧ (CommitPoint.Deserialize (n := 7) [0] 0).Initialized = false
    ∧ (Challenge.Deserialize (n := 7) [0] 0).Initialized = true
    ∧ (Response.Deserialize (n := 7) [9] 0).Initialized = false := by
  refine ⟨?_, ?_, ?_, ?_, ?_⟩
  · rw [Bool.eq_false_iff]
    intro h
    have := ((deserialize_validation (n := 7) [3] 1).1).mp h
    revert this
    decide
  · rw [Bool.eq_false_iff]
    intro h
    have := ((deserialize_validation (n := 7) [0] 0).1).mp h
    revert this
    decide
  · rw [Bool.eq_false_iff]
    intro h
    have := ((deserialize_validation (n := 7) [0] 0).2.1).mp h
    revert this
    decide
  · exact ((deserialize_validation (n := 7) [0] 0).2.2.1).mpr (by decide)
  · rw [Bool.eq_false_iff]
    intro h
    have := ((deserialize_validation (n := 7) [9] 0).2.2.2).mp h
    revert this
    decide

/-- C10: for each of the four value types, copy construction and assignment preserve
the initialization flag, produce a value equal to the source under the type's equality
operator whenever the source is initialized, and (by value semantics of the model)
leave the source unchanged. -/
theorem copy_preservation {n : ℕ} :
    ∀ (s : CommitSecret n) (p : CommitPoint n) (c : Challenge n) (r : Response n),
      ((CommitSecret.copy s).Initialized = s.Initialized
        ∧ (∀ d, CommitSecret.assign d s = CommitSecret.copy s)
        ∧ (s.Initialized = true → CommitSecret.beq (CommitSecret.copy s) s = true))
      ∧ ((CommitPoint.copy p).Initialized = p.Initialized
        ∧ (∀ d, CommitPoint.assign d p = CommitPoint.copy p)
        ∧ (p.Initialized = true → CommitPoint.beq (CommitPoint.copy p) p = true))
      ∧ ((Challenge.copy c).Initialized = c.Initialized
        ∧ (∀ d, Challenge.assign d c = Challenge.copy c)
        ∧ (c.Initialized = true → Challenge.beq (Challenge.copy c) c = true))
      ∧ ((Response.copy r).Initialized = r.Initialized
        ∧ (∀ d, Response.assign d r = Response.copy r)
        ∧ (r.Initialized = true → Response.beq (Response.copy r) r = true)) := by
  intro s p c r
  refine ⟨⟨rfl, fun d => rfl, ?_⟩, ⟨rfl, fun d => rfl, ?_⟩, ⟨rfl, fun d => rfl, ?_⟩,
    ⟨rfl, fun d => rfl, ?_⟩⟩
  · intro h
    simp only [CommitSecret.Initialized] at h
    simp [CommitSecret.beq, CommitSecret.copy, h]
  · intro h
    simp only [CommitPoint.Initialized] at h
    simp [CommitPoint.beq, CommitPoint.copy, h]
  · intro h
    simp only [Challenge.Initialized] at h
    simp [Challenge.beq, Challenge.copy, h]
  · intro h
    simp only [Response.Initialized] at h
    simp [Response.beq, Response.copy, h]

/-- C10 witness: copies of concrete initialized values compare equal to their
sources under the equality operators. -/
theorem copy_preservation_witness :
    CommitSecret.beq (CommitSecret.copy (⟨2, true⟩ : CommitSecret 7)) ⟨2, true⟩ = true
    ∧ CommitPoint.beq (CommitPoint.copy (⟨3, true⟩ : CommitPoint 7)) ⟨3, true⟩ = true
    ∧ Challenge.beq (Challenge.copy (⟨4, true⟩ : Challenge 7)) ⟨4, true⟩ = true
    ∧ Response.beq (Response.copy (⟨5, true⟩ : Response 7)) ⟨5, true⟩ = true := by
  have h := copy_preservation (⟨2, true⟩ : CommitSecret 7) ⟨3, true⟩ ⟨4, true⟩ ⟨5, true⟩
  exact ⟨h.1.2.2 (by decide), h.2.1.2.2 (by decide), h.2.2.1.2.2 (by decide),
    h.2.2.2.2.2 (by decide)⟩

/-- C2: a response correctly constructed from a signer's secret, the shared challenge
and the signer's private key passes `VerifyResponse` against the matching public key
and the commit point derived from the same secret; moreover, on initialized operands
`VerifyResponse` decides exactly the point identity
`response·G == commitPoint + challenge·pubkey`. -/
theorem verify_response_soundness {n : ℕ} (G : ZMod n)
    (secret : CommitSecret n) (ch : Challenge n) (priv : PrivKey n)
    (hs : secret.Initialized = true) (hc : ch.Initialized = true) :
    MultiSig.VerifyResponse G (Response.ofInputs secret ch priv) ch (priv * G)
      (CommitPoint.ofSecret G secret) = true
    ∧ (∀ (resp : Response n) (pk : PubKey n) (cp : CommitPoint n),
        resp.Initialized = true → cp.Initialized = true →
        (MultiSig.VerifyResponse G resp ch pk cp = true ↔
          resp.m_r * G = cp.m_p + ch.m_c * pk)) := by
  simp only [CommitSecret.Initialized] at hs
  simp only [Challenge.Initialized] at hc
  constructor
  · unfold MultiSig.VerifyResponse Response.ofInputs Response.Set CommitPoint.ofSecret
      CommitPoint.Set
    simp [hs, hc]
    ring
  · intro resp pk cp h1 h2
    simp only [Response.Initialized] at h1
    simp only [CommitPoint.Initialized] at h2
    unfold MultiSig.VerifyResponse
    simp [h1, h2, hc]

/-- C2 witness: a concrete honest signer over the group of order 7 passes
verification. -/
theorem verify_response_soundness_witness :
    MultiSig.VerifyResponse (3 : ZMod 7) (Response.ofInputs ⟨2, true⟩ ⟨4, true⟩ 5)
      ⟨4, true⟩ (5 * 3) (CommitPoint.ofSecret 3 ⟨2, true⟩) = true :=
  (verify_response_soundness 3 ⟨2, true⟩ ⟨4, true⟩ 5 (by decide) (by decide)).1

/-- C3: for every initialized (valid) value of each of the four types — a
`CommitSecret` with nonzero scalar, a `CommitPoint` that is not the identity, any
initialized `Challenge` or `Response` — deserializing the fixed-width big-endian bytes
written by `Serialize` at the same offset yields a value equal to the original under
that type's equality operator, for every destination buffer and offset. -/
theorem serialize_deserialize_roundtrip {n : ℕ} [NeZero n]
    (s : CommitSecret n) (p : CommitPoint n) (c : Challenge n) (r : Response n)
    (hs : s.Initialized = true) (hs0 : s.m_s ≠ 0)
    (hp : p.Initialized = true) (hp0 : p.m_p ≠ 0)
    (hc : c.Initialized = true) (hr : r.Initialized = true)
    (dst : List ℕ) (offset : ℕ) :
    CommitSecret.beq (CommitSecret.Deserialize (s.Serialize dst offset) offset) s = true
    ∧ CommitPoint.beq (CommitPoint.Deserialize (p.Serialize dst offset) offset) p = true
    ∧ Challenge.beq (Challenge.Deserialize (c.Serialize dst offset) offset) c = true
    ∧ Response.beq (Response.Deserialize (r.Serialize dst offset) offset) r = true := by
  simp only [CommitSecret.Initialized] at hs
  simp only [CommitPoint.Initialized] at hp
  simp only [Challenge.Initialized] at hc
  simp only [Response.Initialized] at hr
  refine ⟨?_, ?_, ?_, ?_⟩
  · unfold CommitSecret.Serialize
    rw [deserializeSecret_eq _ _ _
      (readAt_writeAt dst offset _ _ (beBytes_length _ _)),
      beDecode_beBytes_orderWidth (ZMod.val_lt s.m_s)]
    have h1 : 1 ≤ s.m_s.val := by
      have := (ZMod.val_eq_zero s.m_s).not.mpr hs0
      omega
    rw [if_pos ⟨h1, ZMod.val_lt s.m_s⟩]
    simp [CommitSecret.beq, ZMod.natCast_val, hs]
  · unfold CommitPoint.Serialize
    rw [deserializePoint_eq _ _ _
      (readAt_writeAt dst offset _ _ (beBytes_length _ _)),
      beDecode_beBytes_orderWidth (ZMod.val_lt p.m_p)]
    have h1 : 1 ≤ p.m_p.val := by
      have := (ZMod.val_eq_zero p.m_p).not.mpr hp0
      omega
    rw [if_pos ⟨ZMod.val_lt p.m_p, h1⟩]
    simp [CommitPoint.beq, ZMod.natCast_val, hp]
  · unfold Challenge.Serialize
    rw [deserializeChallenge_eq _ _ _
      (readAt_writeAt dst offset _ _ (beBytes_length _ _)),
      beDecode_beBytes_orderWidth (ZMod.val_lt c.m_c),
      if_pos (ZMod.val_lt c.m_c)]
    simp [Challenge.beq, ZMod.natCast_val, hc]
  · unfold Response.Serialize
    rw [deserializeResponse_eq _ _ _
      (readAt_writeAt dst offset _ _ (beBytes_length _ _)),
      beDecode_beBytes_orderWidth (ZMod.val_lt r.m_r),
      if_pos (ZMod.val_lt r.m_r)]
    simp [Response.beq, ZMod.natCast_val, hr]

/-- C3 witness: concrete round trips over the group of order 7, at a nonzero offset
into a nonempty destination buffer. -/
theorem serialize_deserialize_roundtrip_witness :
    CommitSecret.beq (CommitSecret.Deserialize (n := 7)
      ((⟨3, true⟩ : CommitSecret 7).Serialize [9, 9] 1) 1) ⟨3, true⟩ = true
    ∧ CommitPoint.beq (CommitPoint.Deserialize (n := 7)
      ((⟨5, true⟩ : CommitPoint 7).Serialize [9, 9] 1) 1) ⟨5, true⟩ = true
    ∧ Challenge.beq (Challenge.Deserialize (n := 7)
      ((⟨0, true⟩ : Challenge 7).Serialize [9, 9] 1) 1) ⟨0, true⟩ = true
    ∧ Response.beq (Response.Deserialize (n := 7)
      ((⟨6, true⟩ : Response 7).Serialize [9, 9] 1) 1) ⟨6, true⟩ = true :=
  serialize_deserialize_roundtrip (n := 7) ⟨3, true⟩ ⟨5, true⟩ ⟨0, true⟩ ⟨6, true⟩
    (by decide) (by decide) (by decide) (by decide) (by decide) (by decide) [9, 9] 1

/-- C4 counterexample: over the group of order 5, `[1, 4, 2]` is a permutation of
`[2, 1, 4]`, yet aggregating the first list fails (its running sum `1 + 4` hits the
identity) while aggregating the second succeeds — so `AggregatePubKeys` does not
return the same result on every permutation of its input. -/
theorem aggregation_order_dependence_cex :
    ([(1 : ZMod 5), 4, 2]).Perm [2, 1, 4]
    ∧ MultiSig.AggregatePubKeys [(1 : ZMod 5), 4, 2] = none
    ∧ MultiSig.AggregatePubKeys [(2 : ZMod 5), 1, 4] = some 2 := by
  decide

/-- C4 (amended): whenever both orders aggregate successfully, `AggregatePubKeys` and
`AggregateCommits` return the same result on any permutation of the input (the
successful value is the order-independent group sum, though which permutations fail
the running-sum identity check can differ), and `AggregateResponses` returns the same
result on any permutation unconditionally. -/
theorem aggregation_order_independence {n : ℕ} :
    (∀ (l₁ l₂ : List (PubKey n)), l₁.Perm l₂ →
      ∀ v w, MultiSig.AggregatePubKeys l₁ = some v →
        MultiSig.AggregatePubKeys l₂ = some w → v = w)
    ∧ (∀ (l₁ l₂ : List (CommitPoint n)), l₁.Perm l₂ →
      ∀ v w, MultiSig.AggregateCommits l₁ = some v →
        MultiSig.AggregateCommits l₂ = some w → v = w)
    ∧ (∀ (l₁ l₂ : List (Response n)), l₁.Perm l₂ →
      MultiSig.AggregateResponses l₁ = MultiSig.AggregateResponses l₂) := by
  refine ⟨?_, ?_, ?_⟩
  · intro l₁ l₂ hperm v w h1 h2
    have e1 := (AggregatePubKeys_eq_some l₁ v h1).1
    have e2 := (AggregatePubKeys_eq_some l₂ w h2).1
    rw [e1, e2, hperm.sum_eq]
  · intro l₁ l₂ hperm v w h1 h2
    obtain ⟨e1, _, i1, _⟩ := AggregateCommits_eq_some l₁ v h1
    obtain ⟨e2, _, i2, _⟩ := AggregateCommits_eq_some l₂ w h2
    have hsum : ((l₁.map (fun x => x.m_p)).sum : ZMod n)
        = (l₂.map (fun x => x.m_p)).sum := (hperm.map _).sum_eq
    cases v with
    | mk vp vi =>
      cases w with
      | mk wp wi =>
        simp only at e1 e2 i1 i2
        rw [e1, e2, i1, i2, hsum]
  · intro l₁ l₂ hperm
    match l₁, l₂ with
    | [], [] => rfl
    | [], q :: r₂ => exact absurd hperm.length_eq (by simp)
    | p :: r₁, [] => exact absurd hperm.length_eq (by simp)
    | p :: r₁, q :: r₂ =>
      show (if (p :: r₁).all (fun r => r.m_initialized) then
          some (⟨((p :: r₁).map (fun r => r.m_r)).sum, true⟩ : Response n) else none)
        = (if (q :: r₂).all (fun r => r.m_initialized) then
          some (⟨((q :: r₂).map (fun r => r.m_r)).sum, true⟩ : Response n) else none)
      rw [all_of_perm _ _ hperm, (hperm.map (fun r => r.m_r)).sum_eq]

/-- C4 amended-claim witness: two successful permuted aggregations over the group of
order 7 agree, and permuted response lists aggregate identically. -/
theorem aggregation_order_independence_witness :
    (MultiSig.AggregatePubKeys [(2 : ZMod 7), 3] = some 5
      ∧ MultiSig.AggregatePubKeys [(3 : ZMod 7), 2] = some 5)
    ∧ MultiSig.AggregateResponses [(⟨1, true⟩ : Response 7), ⟨2, false⟩]
      = MultiSig.AggregateResponses [(⟨2, false⟩ : Response 7), ⟨1, true⟩] := by
  refine ⟨⟨by decide, by decide⟩, ?_⟩
  exact aggregation_order_independence.2.2 [⟨1, true⟩, ⟨2, false⟩]
    [⟨2, false⟩, ⟨1, true⟩] (by decide)

theorem sum_map_add_mul {n : ℕ} (c : ZMod n) :
    ∀ (l : List (PrivKey n × CommitSecret n)),
      (l.map (fun x => x.2.m_s + c * x.1)).sum
        = (l.map (fun x => x.2.m_s)).sum + c * (l.map (fun x => x.1)).sum := by
  intro l
  induction l with
  | nil => simp
  | cons p rest ih =>
    simp only [List.map_cons, List.sum_cons, ih]
    ring

theorem sum_map_mul_right_G {n : ℕ} (G : ZMod n) (f : PrivKey n × CommitSecret n → ZMod n)
    (l : List (PrivKey n × CommitSecret n)) :
    (l.map (fun x => f x * G)).sum = (l.map f).sum * G := by
  induction l with
  | nil => simp
  | cons p rest ih =>
    simp only [List.map_cons, List.sum_cons, ih]
    ring

/-- C1: end-to-end completeness.  For any nonempty committee of signers, each with an
initialized `CommitSecret` and the derived `CommitPoint`, when commit-point and
public-key aggregation succeed, the challenge built from the aggregated commit point,
the aggregated public key and the message, together with each signer's response
`Response(secret, challenge, privkey)`, aggregate (via `AggregateResponses` and
`AggregateSign`) into a signature satisfying the standalone Schnorr verification
equation: hashing `R' = aggregatedResponse·G − challenge·aggregatedPubKey` with the
aggregated public key and the message yields the challenge again. -/
theorem end_to_end_completeness {n : ℕ} [NeZero n] (G : ZMod n)
    (H : ZMod n → ZMod n → List ℕ → ℕ)
    (signers : List (PrivKey n × CommitSecret n)) (message : List ℕ)
    (hsec : ∀ x ∈ signers, (x.2).Initialized = true)
    (aggC : CommitPoint n) (aggP : PubKey n)
    (hC : MultiSig.AggregateCommits
      (signers.map (fun x => CommitPoint.ofSecret G x.2)) = some aggC)
    (hP : MultiSig.AggregatePubKeys (signers.map (fun x => x.1 * G)) = some aggP) :
    ∃ (respAgg : Response n) (sig : Signature n),
      MultiSig.AggregateResponses (signers.map (fun x =>
        Response.ofInputs x.2 (Challenge.ofInputs H aggC aggP message) x.1))
        = some respAgg
      ∧ MultiSig.AggregateSign (Challenge.ofInputs H aggC aggP message) respAgg
        = some sig
      ∧ Schnorr.Verify H G sig aggP message = true := by
  obtain ⟨hCp, hC0, hCi, hCne⟩ := AggregateCommits_eq_some _ _ hC
  obtain ⟨hPs, hP0, hPne⟩ := AggregatePubKeys_eq_some _ _ hP
  have hsne : signers ≠ [] := by
    intro h
    rw [h] at hCne
    simp at hCne
  have hsec2 : ∀ x ∈ signers, (x.2).m_initialized = true := by
    intro x hx
    have := hsec x hx
    simpa [CommitSecret.Initialized] using this
  set ch := Challenge.ofInputs H aggC aggP message with hch
  have hchi : ch.m_initialized = true := by
    rw [hch]
    simp [Challenge.ofInputs, Challenge.Set, hCi, hC0]
  have hchc : ch.m_c = ((H aggC.m_p aggP message : ℕ) : ZMod n) := by
    rw [hch]
    simp [Challenge.ofInputs, Challenge.Set, hCi, hC0]
  have hLne : signers.map (fun x => Response.ofInputs x.2 ch x.1) ≠ [] := by
    intro h
    rw [List.map_eq_nil_iff] at h
    exact hsne h
  have hLall : ∀ r ∈ signers.map (fun x => Response.ofInputs x.2 ch x.1),
      r.m_initialized = true := by
    intro r hr
    obtain ⟨x, hx, rfl⟩ := List.mem_map.mp hr
    simp [Response.ofInputs, Response.Set, hsec2 x hx, hchi]
  have hresp := AggregateResponses_eq_some _ hLne hLall
  have hRa : ((signers.map (fun x => Response.ofInputs x.2 ch x.1)).map
      (fun r => r.m_r)).sum
      = (signers.map (fun x => x.2.m_s)).sum
        + ch.m_c * (signers.map (fun x => x.1)).sum := by
    rw [List.map_map]
    have heq : signers.map ((fun r => r.m_r) ∘ (fun x => Response.ofInputs x.2 ch x.1))
        = signers.map (fun x => x.2.m_s + ch.m_c * x.1) := by
      apply List.map_congr_left
      intro x hx
      simp [Function.comp, Response.ofInputs, Response.Set, hsec2 x hx, hchi]
    rw [heq, sum_map_add_mul]
  have hCa : aggC.m_p = (signers.map (fun x => x.2.m_s)).sum * G := by
    rw [hCp, List.map_map]
    have heq : signers.map ((fun c => c.m_p) ∘ (fun x => CommitPoint.ofSecret G x.2))
        = signers.map (fun x => x.2.m_s * G) := by
      apply List.map_congr_left
      intro x hx
      simp [Function.comp, CommitPoint.ofSecret, CommitPoint.Set, hsec2 x hx]
    rw [heq, sum_map_mul_right_G]
  have hPa : aggP = (signers.map (fun x => x.1)).sum * G := by
    rw [hPs, sum_map_mul_right_G]
  refine ⟨⟨((signers.map (fun x => Response.ofInputs x.2 ch x.1)).map
      (fun r => r.m_r)).sum, true⟩, ⟨ch.m_c, ((signers.map
      (fun x => Response.ofInputs x.2 ch x.1)).map (fun r => r.m_r)).sum⟩,
    hresp, ?_, ?_⟩
  · simp [MultiSig.AggregateSign, hchi]
  · unfold Schnorr.Verify
    have key : ((signers.map (fun x => Response.ofInputs x.2 ch x.1)).map
        (fun r => r.m_r)).sum * G - ch.m_c * aggP = aggC.m_p := by
      rw [hRa, hPa, hCa]
      ring
    simp only [key]
    rw [hchc]
    simp

/-- C1 witness: two concrete signers over the group of order 7 with generator 1 and a
concrete hash-to-scalar function run the whole protocol and the resulting signature
passes the standalone Schnorr verification equation. -/
theorem end_to_end_completeness_witness :
    (∀ x ∈ [((2 : ZMod 7), (⟨3, true⟩ : CommitSecret 7)), (4, ⟨5, true⟩)],
      (x.2).Initialized = true)
    ∧ MultiSig.AggregateCommits
      ([((2 : ZMod 7), (⟨3, true⟩ : CommitSecret 7)), (4, ⟨5, true⟩)].map
        (fun x => CommitPoint.ofSecret 1 x.2)) = some ⟨1, true⟩
    ∧ MultiSig.AggregatePubKeys
      ([((2 : ZMod 7), (⟨3, true⟩ : CommitSecret 7)), (4, ⟨5, true⟩)].map
        (fun x => x.1 * 1)) = some 6
    ∧ (∃ (respAgg : Response 7) (sig : Signature 7),
      MultiSig.AggregateResponses
        ([((2 : ZMod 7), (⟨3, true⟩ : CommitSecret 7)), (4, ⟨5, true⟩)].map (fun x =>
          Response.ofInputs x.2
            (Challenge.ofInputs end_to_end_witness_H ⟨1, true⟩ 6 [1, 2, 3]) x.1))
        = some respAgg
      ∧ MultiSig.AggregateSign
        (Challenge.ofInputs end_to_end_witness_H ⟨1, true⟩ 6 [1, 2, 3]) respAgg
        = some sig
      ∧ Schnorr.Verify end_to_end_witness_H 1 sig 6 [1, 2, 3] = true) :=
  ⟨by decide, by decide, by decide,
    end_to_end_completeness 1 end_to_end_witness_H
      [((2 : ZMod 7), (⟨3, true⟩ : CommitSecret 7)), (4, ⟨5, true⟩)] [1, 2, 3]
      (by decide) ⟨1, true⟩ 6 (by decide) (by decide)⟩

end Zilliqa
